import Mathlib

/-!
Shallow embedding of `run2.py` (multi-robot key-collection search) for
verification of its specification.

Modelling conventions:
* Python `int` becomes `Int` (coordinates) or `Nat` (distances, counters).
* Python `set`/`dict` become `List`-based sets and association lists,
  preserving insertion and iteration order where the code iterates them.
* Fallible operations (`dict[k]`, `set.remove`, `data[0]`) return `Option`,
  `none` modelling a raised exception.
* The two `while` loops (`Field.get_nearest_key`, `solve`) are written with
  explicit fuel; `none` models fuel exhaustion and lemmas below show the
  chosen fuel always suffices, so the fuel-free behaviour is recovered.
-/

namespace Run2

/-- `Point` from run2.py: frozen dataclass with integer fields `x`, `y`
(`x` is the column, `y` is the row). -/
structure Point where
  x : Int
  y : Int
deriving DecidableEq, Repr

instance : BEq Point := ⟨fun a b => decide (a = b)⟩

instance : LawfulBEq Point where
  eq_of_beq h := of_decide_eq_true h
  rfl := by simp [BEq.beq]

/-- `Path` from run2.py: `Path(length, start, end)`; the `end` field is named
`end_` because `end` is a Lean keyword. -/
structure Path where
  length : Nat
  start : Point
  end_ : Point
deriving DecidableEq, Repr

/-- `Field.Element` from run2.py. -/
inductive Element where
  | empty | wall | door | key | robot
deriving DecidableEq, Repr

/-- `Field.KEYS_CHARS`: the lowercase letters a..z. -/
def isKeyChar (c : Char) : Bool := 'a' ≤ c && c ≤ 'z'

/-- `Field.DOORS_CHAR`: the uppercase letters A..Z. -/
def isDoorChar (c : Char) : Bool := 'A' ≤ c && c ≤ 'Z'

/-- `Field.Element.from_string`: classifies one character; `none` models the
`KeyError` raised on a character outside the `_values` table. -/
def fromString (c : Char) : Option Element :=
  if isKeyChar c then some .key
  else if isDoorChar c then some .door
  else if c = '.' then some .empty
  else if c = '#' then some .wall
  else if c = '@' then some .robot
  else none

/-- `Field` from run2.py.  The Python sets `_robots`, `_keys`, `doors`,
`walls` are lists without duplicates (construction inserts each grid cell at
most once); `doors_keys` is the dict as an association list. -/
structure Field where
  robots : List Point
  keys : List Point
  doors_keys : List (Point × Point)
  doors : List Point
  walls : List Point
  x_max_value : Int
  y_max_value : Int
deriving DecidableEq, Repr

/-- `FieldState` from run2.py: frozen sets of robot and key coordinates. -/
structure FieldState where
  robots : Finset Point
  keys : Finset Point
deriving DecidableEq

/-- `State` from run2.py: a search node pairing a field with cumulative steps. -/
structure State where
  field : Field
  steps : Nat
deriving DecidableEq

namespace Field

/-- `Field.keys_count`. -/
def keys_count (f : Field) : Nat := f.keys.length

/-- Python `set.add`: no-op when the element is already present. -/
def insertSet (l : List Point) (p : Point) : List Point :=
  if p ∈ l then l else l ++ [p]

/-- `Field.collect_key`: `_robots.remove(robot)`, `_robots.add(key)`,
`_keys.remove(key)`.  `none` models the `KeyError` raised by `set.remove`
when `robot_position` is not a robot or `key_position` is not a key. -/
def collect_key (f : Field) (robot_position key_position : Point) :
    Option Field :=
  if robot_position ∈ f.robots then
    if key_position ∈ f.keys then
      some ⟨insertSet (f.robots.erase robot_position) key_position,
            f.keys.erase key_position,
            f.doors_keys, f.doors, f.walls, f.x_max_value, f.y_max_value⟩
    else none
  else none

/-- The direction offsets of `Field.get_neighbors`, in source order
`[(0, 1), (1, 0), (0, -1), (-1, 0)]`. -/
def dirs : List (Int × Int) := [(0, 1), (1, 0), (0, -1), (-1, 0)]

/-- The guard of `Field.get_neighbors`.  The door clause mirrors the Python
`neighbor not in self.doors or self.doors_keys[neighbor] not in self._keys`;
a door coordinate missing from `doors_keys` would raise `KeyError` in Python
and is modelled as blocked here — the constructor invariant (claim C10)
shows every door of a constructed field has an entry, so the two readings
never differ on a constructed field. -/
def passable (f : Field) (n : Point) : Bool :=
  decide (0 < n.x) && decide (n.x < f.x_max_value) &&
  decide (0 < n.y) && decide (n.y < f.y_max_value) &&
  !(decide (n ∈ f.robots)) && !(decide (n ∈ f.walls)) &&
  (!(decide (n ∈ f.doors)) ||
    (match f.doors_keys.lookup n with
     | some k => !(decide (k ∈ f.keys))
     | none => false))

/-- `Field.get_neighbors`: the four adjacent coordinates, in direction order,
filtered by the guard. -/
def get_neighbors (f : Field) (position : Point) : List Point :=
  (dirs.map fun d => Point.mk (position.x + d.1) (position.y + d.2)).filter
    f.passable

/-- `Field.copy`: duplicates the robot and key sets and shares the rest; as a
pure value it reconstructs the record (the aliasing content of `copy` is
modelled separately by the store-based model below). -/
def copy (f : Field) : Field :=
  ⟨f.robots, f.keys, f.doors_keys, f.doors, f.walls, f.x_max_value,
   f.y_max_value⟩

/-- `Field.dump`: the frozen configuration signature. -/
def dump (f : Field) : FieldState :=
  ⟨f.robots.toFinset, f.keys.toFinset⟩

/-- Number of interior grid cells `{p | 0 < p.x < x_max ∧ 0 < p.y < y_max}`;
used to size the BFS fuel. -/
def interiorCard (f : Field) : Nat :=
  (f.x_max_value - 1).toNat * (f.y_max_value - 1).toNat

/-- The loop of `Field.get_nearest_key`.  `dist` is the `distance` dict as an
association list, `queue` the FIFO deque.  Outer `none` is fuel exhaustion
(shown impossible below); `some none` is the Python `return None`.
`(dist.lookup p).getD 0` models `distance[current_position]`, which never
fails because every queued point has been given a distance. -/
def bfsAux (f : Field) (start : Point) :
    Nat → List (Point × Nat) → List Point → Option (Option Path)
  | 0, _, _ => none
  | _ + 1, _, [] => some none
  | fuel + 1, dist, p :: rest =>
    if p ∈ f.keys then
      some (some ⟨(dist.lookup p).getD 0, start, p⟩)
    else
      let dp := (dist.lookup p).getD 0
      let fresh := (f.get_neighbors p).filter fun n => (dist.lookup n).isNone
      bfsAux f start fuel (dist ++ fresh.map fun n => (n, dp + 1))
        (rest ++ fresh)

/-- `Field.get_nearest_key`: BFS from `robot_position`, seeded with
`distance = {robot: 0}` and `queue = [robot]`.  The fuel `2 * (interior + 1)`
is proven sufficient below, so `Option.join` conflates nothing. -/
def get_nearest_key (f : Field) (robot_position : Point) : Option Path :=
  (bfsAux f robot_position (2 * (f.interiorCard + 1))
    [(robot_position, 0)] [robot_position]).join

end Field

/-- The cells of the input grid with their characters, in the iteration order
of `_initialize_field` (row by row, left to right), with `Point(x, y)` built
from the column index `x` and row index `y`. -/
def gridCells (data : List (List Char)) : List (Point × Char) :=
  (data.enum.map fun yr =>
    yr.2.enum.map fun xc =>
      (Point.mk (xc.1 : Int) (yr.1 : Int), xc.2)).flatten

/-- `keys[c]` of the first pass of `_initialize_field`: the key dict maps a
lowercase letter to the coordinate of its last key cell (dict assignment
overwrites). -/
def keyFor (cells : List (Point × Char)) (c : Char) : Option Point :=
  ((cells.filter fun pc => fromString pc.2 = some .key && pc.2 = c).map
    Prod.fst).getLast?

/-- Second pass of `_initialize_field`: builds `doors_keys` over the door
cells; `none` models the `KeyError` from `keys[element.lower()]` when a door
letter has no key cell. -/
def doorEntries (cells : List (Point × Char)) :
    List (Point × Char) → Option (List (Point × Point))
  | [] => some []
  | pc :: rest =>
    match keyFor cells pc.2.toLower, doorEntries cells rest with
    | some k, some tl => some ((pc.1, k) :: tl)
    | _, _ => none

/-- `Field.__init__` plus `_initialize_field`.  `none` models any exception:
`data[0]` on empty input, `Field._values[c]` on an unclassifiable character,
or `keys[element.lower()]` on a door with no matching key.  No validation of
row lengths or robot count is performed, exactly as in the source. -/
def mkField (data : List (List Char)) : Option Field :=
  match data with
  | [] => none
  | row0 :: _ =>
    let cells := gridCells data
    if cells.all fun pc => (fromString pc.2).isSome then
      match doorEntries cells
          (cells.filter fun pc => fromString pc.2 = some .door) with
      | none => none
      | some dk =>
        some ⟨(cells.filter fun pc => fromString pc.2 = some .robot).map
                Prod.fst,
              (cells.filter fun pc => fromString pc.2 = some .key).map
                Prod.fst,
              dk,
              (cells.filter fun pc => fromString pc.2 = some .door).map
                Prod.fst,
              (cells.filter fun pc => fromString pc.2 = some .wall).map
                Prod.fst,
              (row0.length : Int) - 1,
              (data.length : Int) - 1⟩
    else none

/-- `result = min(result, state.steps)` with `result` initially
`float("inf")` (modelled as `none`). -/
def pyMin (result : Option Nat) (s : Nat) : Option Nat :=
  some (match result with | none => s | some r => min r s)

/-- The body of `for robot in state.field.robots` in `solve`.  Threads the
visited set; returns the updated visited set, the states appended to the
queue, and (instrumentation) the signatures marked visited, all in robot
order.  `none` models an exception from `collect_key` (shown impossible
below). -/
def expand (f : Field) (steps : Nat) :
    List Point → List FieldState →
    Option (List FieldState × List State × List FieldState)
  | [], visited => some (visited, [], [])
  | robot :: robs, visited =>
    match f.get_nearest_key robot with
    | none => expand f steps robs visited
    | some path =>
      match f.copy.collect_key path.start path.end_ with
      | none => none
      | some nf =>
        let d := nf.dump
        if d ∈ visited then expand f steps robs visited
        else
          match expand f steps robs (d :: visited) with
          | none => none
          | some (v', adds, nds) =>
            some (v', ⟨nf, steps + path.length⟩ :: adds, d :: nds)

/-- The `while states` loop of `solve`, with fuel.  `result : Option Nat`
is the running minimum (`none` = `float("inf")`).  Instrumentation: `terms`
records the `state.steps` of every dequeued terminal node, `enqs` every
signature added to `visited`.  Outer `none` models fuel exhaustion or an
exception (both shown impossible for `solve`'s own call). -/
def solveLoop :
    Nat → List FieldState → List State → Option Nat → List Nat →
    List FieldState → Option (Option Nat × List Nat × List FieldState)
  | 0, _, _, _, _, _ => none
  | _ + 1, _, [], result, terms, enqs => some (result, terms, enqs)
  | fuel + 1, visited, st :: rest, result, terms, enqs =>
    if st.field.keys_count = 0 then
      solveLoop fuel visited rest (pyMin result st.steps)
        (terms ++ [st.steps]) enqs
    else
      match expand st.field st.steps st.field.robots visited with
      | none => none
      | some (visited', adds, nds) =>
        solveLoop fuel visited' (rest ++ adds) result terms (enqs ++ nds)

/-- Fuel for the solve loop: one more than the weight of the initial state
under `w(st) = (|robots| + 1) ^ |keys|`, which bounds the iteration count. -/
def solveFuel (f : Field) : Nat :=
  (f.robots.length + 1) ^ f.keys.length + 1

/-- `solve` with its instrumentation trace. -/
def solveTrace (data : List (List Char)) :
    Option (Option Nat × List Nat × List FieldState) :=
  (mkField data).bind fun f =>
    solveLoop (solveFuel f) [] [⟨f, 0⟩] none [] []

/-- `solve` from run2.py.  `none` models an exception escaping `solve`
(construction error); `some none` models the actual return value
`float("inf")` — the final line `result if result is not float("inf") else 0`
compares object identity against a fresh float object, so `is not` is always
true and the `else 0` branch is dead; `some (some n)` models returning the
integer `n`. -/
def solve (data : List (List Char)) : Option (Option Nat) :=
  (solveTrace data).map Prod.fst

/-! ### Store-based model of `Field.copy` aliasing

Python `Field.copy` copies the `_robots` and `_keys` set objects and shares
the rest by reference.  To state the frame property (claim C6) we model the
mutable sets as heap cells: a store of lists indexed by `Nat` references, a
field holding references to its two mutable sets, `copyRef` allocating fresh
cells with copied contents (`self._robots.copy()` / `self._keys.copy()`),
and `collect_key_ref` mutating the cells in place. -/

/-- A heap of Python set objects. -/
abbrev SetStore := List (List Point)

/-- A `Field` whose mutable sets live in a `SetStore`; the immutable grid
geometry is held by value (it is shared and never written). -/
structure FieldRef where
  robots_ref : Nat
  keys_ref : Nat
  doors_keys : List (Point × Point)
  doors : List Point
  walls : List Point
  x_max_value : Int
  y_max_value : Int

/-- Dereference a set. -/
def readSet (σ : SetStore) (i : Nat) : List Point :=
  List.getD σ i []

/-- Overwrite a set in place. -/
def writeSet (σ : SetStore) (i : Nat) (s : List Point) : SetStore :=
  List.set σ i s

/-- `Field.copy` in the store model: allocates two fresh cells holding copies
of the parent's robot and key sets and shares every other component. -/
def copyRef (σ : SetStore) (f : FieldRef) : SetStore × FieldRef :=
  (σ ++ [readSet σ f.robots_ref, readSet σ f.keys_ref],
   ⟨List.length σ, List.length σ + 1, f.doors_keys, f.doors, f.walls,
    f.x_max_value, f.y_max_value⟩)

/-- `Field.collect_key` in the store model: mutates the robot and key cells
of `f` in place; `none` models the `KeyError` of `set.remove`. -/
def collect_key_ref (σ : SetStore) (f : FieldRef)
    (robot_position key_position : Point) : Option SetStore :=
  let robots := readSet σ f.robots_ref
  let keys := readSet σ f.keys_ref
  if robot_position ∈ robots then
    if key_position ∈ keys then
      some (writeSet
        (writeSet σ f.robots_ref
          (Field.insertSet (robots.erase robot_position) key_position))
        f.keys_ref (keys.erase key_position))
    else none
  else none

/-! ### Reachability

`Steps f p q n`: starting at `p`, `n` hops along `get_neighbors` edges of
the (fixed) field `f` reach `q`.  This is the ground-truth distance notion
for the nearest-key claims: all edges have unit cost. -/

inductive Steps (f : Field) : Point → Point → Nat → Prop where
  | refl (p : Point) : Steps f p p 0
  | tail {p q r : Point} {n : Nat} :
      Steps f p q n → r ∈ f.get_neighbors q → Steps f p r (n + 1)

/-- The interior cells of a field as a finset (those not excluded by the
bounds test of `get_neighbors`). -/
def interiorFinset (f : Field) : Finset Point :=
  ((Finset.Ioo 0 f.x_max_value) ×ˢ (Finset.Ioo 0 f.y_max_value)).map
    ⟨fun xy => ⟨xy.1, xy.2⟩, fun a b h => by
      cases a; cases b; cases h; rfl⟩

/-- The distance recorded for `p` in the BFS `distance` dict
(`distance[p]`, defaulting to 0 exactly as `Field.bfsAux` reads it). -/
def dval (dist : List (Point × Nat)) (p : Point) : Nat :=
  (dist.lookup p).getD 0

/-- Weight of a search node, used to bound the iteration count of the solve
loop: popping a node adds children of strictly smaller total weight. -/
def weight (st : State) : Nat :=
  (st.field.robots.length + 1) ^ st.field.keys.length

/-- Invariants of the BFS loop state of `Field.get_nearest_key`, relating
the `distance` map and the FIFO queue. -/
structure BfsInv (f : Field) (start : Point) (dist : List (Point × Nat))
    (queue : List Point) : Prop where
  nd : (dist.map Prod.fst).Nodup
  qnd : queue.Nodup
  qsub : ∀ p ∈ queue, p ∈ dist.map Prod.fst
  startMem : start ∈ dist.map Prod.fst
  exact : ∀ pn ∈ dist, Steps f start pn.1 pn.2 ∧
    ∀ m, Steps f start pn.1 m → pn.2 ≤ m
  closed : ∀ p ∈ dist.map Prod.fst, p ∉ queue →
    ∀ n ∈ f.get_neighbors p, n ∈ dist.map Prod.fst
  nokey : ∀ p ∈ dist.map Prod.fst, p ∉ queue → p ∉ f.keys
  sorted : queue.Pairwise fun a b => dval dist a ≤ dval dist b
  spread : ∀ a ∈ queue, ∀ b ∈ queue, dval dist b ≤ dval dist a + 1

/-! ### Concrete fixtures -/

/-- The regression fixture grid of the specification. -/
def data9 : List (List Char) :=
  [['#','#','#','#','#','#','#','#','#'],
   ['#','b','.','A','.','@','.','a','#'],
   ['#','#','#','#','#','#','#','#','#']]

/-- The field built from `data9` (checked against `mkField` below). -/
def field9 : Field :=
  ⟨[⟨5, 1⟩],
   [⟨1, 1⟩, ⟨7, 1⟩],
   [(⟨3, 1⟩, ⟨7, 1⟩)],
   [⟨3, 1⟩],
   [⟨0, 0⟩, ⟨1, 0⟩, ⟨2, 0⟩, ⟨3, 0⟩, ⟨4, 0⟩, ⟨5, 0⟩, ⟨6, 0⟩, ⟨7, 0⟩, ⟨8, 0⟩,
    ⟨0, 1⟩, ⟨8, 1⟩,
    ⟨0, 2⟩, ⟨1, 2⟩, ⟨2, 2⟩, ⟨3, 2⟩, ⟨4, 2⟩, ⟨5, 2⟩, ⟨6, 2⟩, ⟨7, 2⟩, ⟨8, 2⟩],
   8, 2⟩

/-- A grid whose single key is walled off from the single robot: the queue
empties without any terminal node. -/
def dataUnreachable : List (List Char) :=
  [['#','#','#','#','#'],
   ['#','@','#','a','#'],
   ['#','#','#','#','#']]

/-- A malformed grid: ragged rows (row 1 has length 4, row 0 has length 3)
and zero robot cells. -/
def dataRagged : List (List Char) :=
  [['#','#','#'],
   ['#','a','#','#'],
   ['#','#','#']]

/-- A grid with a door `A` and no key `a` anywhere. -/
def dataDoorNoKey : List (List Char) :=
  [['#','#','#'],
   ['#','A','#'],
   ['#','#','#']]

/-- A valid grid with zero keys. -/
def dataZeroKeys : List (List Char) :=
  [['#','#','#'],
   ['#','@','#'],
   ['#','#','#']]

/-- The field built from `dataZeroKeys` (checked against `mkField` below). -/
def fieldZeroKeys : Field :=
  ⟨[⟨1, 1⟩], [], [], [],
   [⟨0, 0⟩, ⟨1, 0⟩, ⟨2, 0⟩, ⟨0, 1⟩, ⟨2, 1⟩, ⟨0, 2⟩, ⟨1, 2⟩, ⟨2, 2⟩],
   2, 2⟩

/-- An all-empty 4×4 grid used to exhibit the neighbor emission order. -/
def dataOpen : List (List Char) :=
  [['#','#','#','#'],
   ['#','.','.','#'],
   ['#','.','.','#'],
   ['#','#','#','#']]

/-!
## Theorems

Supporting lemmas first, then one theorem per claim (with witnesses and
counterexamples where required).
-/

/-! ### Association-list lookup lemmas -/

theorem lookup_eq_none_iff {α β : Type} [BEq α] [LawfulBEq α]
    (l : List (α × β)) (a : α) :
    l.lookup a = none ↔ a ∉ l.map Prod.fst := by
  induction l with
  | nil => simp
  | cons hd tl ih =>
    obtain ⟨k, b⟩ := hd
    by_cases h : a = k
    · subst h
      simp [List.lookup_cons]
    · rw [List.lookup_cons, beq_false_of_ne h]
      simp only [List.map_cons, List.mem_cons, not_or]
      constructor
      · intro h1
        exact ⟨h, ih.mp h1⟩
      · intro h1
        exact ih.mpr h1.2

theorem lookup_isSome_iff {α β : Type} [BEq α] [LawfulBEq α]
    (l : List (α × β)) (a : α) :
    (l.lookup a).isSome ↔ a ∈ l.map Prod.fst := by
  rw [Option.isSome_iff_ne_none, ne_eq, lookup_eq_none_iff, not_not]

theorem lookup_mem {α β : Type} [BEq α] [LawfulBEq α]
    {l : List (α × β)} {a : α} {b : β} (h : l.lookup a = some b) :
    (a, b) ∈ l := by
  induction l with
  | nil => simp at h
  | cons hd tl ih =>
    obtain ⟨k, c⟩ := hd
    by_cases hak : a = k
    · subst hak
      rw [List.lookup_cons_self, Option.some_inj] at h
      subst h
      exact List.mem_cons_self _ _
    · rw [List.lookup_cons, beq_false_of_ne hak] at h
      exact List.mem_cons_of_mem _ (ih h)

theorem lookup_of_mem_nd {α β : Type} [BEq α] [LawfulBEq α]
    {l : List (α × β)} (nd : (l.map Prod.fst).Nodup) {a : α} {b : β}
    (h : (a, b) ∈ l) : l.lookup a = some b := by
  induction l with
  | nil => simp at h
  | cons hd tl ih =>
    obtain ⟨k, c⟩ := hd
    simp only [List.map_cons, List.nodup_cons] at nd
    rcases List.mem_cons.mp h with h1 | h1
    · rw [show k = a from (Prod.mk.injEq .. ▸ h1.symm).1,
        show c = b from (Prod.mk.injEq .. ▸ h1.symm).2]
      exact List.lookup_cons_self
    · have hak : a ≠ k := by
        rintro rfl
        exact nd.1 (List.mem_map_of_mem Prod.fst h1)
      rw [List.lookup_cons, beq_false_of_ne hak]
      exact ih nd.2 h1

theorem lookup_append_left {α β : Type} [BEq α] [LawfulBEq α]
    {l l' : List (α × β)} {a : α} {b : β} (h : l.lookup a = some b) :
    (l ++ l').lookup a = some b := by
  induction l with
  | nil => simp at h
  | cons hd tl ih =>
    obtain ⟨k, c⟩ := hd
    by_cases hak : a = k
    · subst hak
      rw [List.lookup_cons_self] at h
      rw [List.cons_append, List.lookup_cons_self]
      exact h
    · rw [List.lookup_cons, beq_false_of_ne hak] at h
      rw [List.cons_append, List.lookup_cons, beq_false_of_ne hak]
      exact ih h

theorem lookup_append_right {α β : Type} [BEq α] [LawfulBEq α]
    {l l' : List (α × β)} {a : α} (h : l.lookup a = none) :
    (l ++ l').lookup a = l'.lookup a := by
  induction l with
  | nil => simp
  | cons hd tl ih =>
    obtain ⟨k, c⟩ := hd
    by_cases hak : a = k
    · subst hak
      rw [List.lookup_cons_self] at h
      exact absurd h (by simp)
    · rw [List.lookup_cons, beq_false_of_ne hak] at h
      rw [List.cons_append, List.lookup_cons, beq_false_of_ne hak]
      exact ih h

theorem lookup_map_pair {α β : Type} [BEq α] [LawfulBEq α]
    (l : List α) (c : β) (a : α) :
    ((l.map fun n => (n, c)).lookup a) = if a ∈ l then some c else none := by
  induction l with
  | nil => simp
  | cons hd tl ih =>
    by_cases hak : a = hd
    · subst hak
      simp [List.lookup_cons_self]
    · rw [List.map_cons, List.lookup_cons, beq_false_of_ne hak, ih]
      simp [hak]

/-! ### get_neighbors lemmas -/

theorem passable_iff (f : Field) (n : Point) :
    f.passable n = true ↔
      0 < n.x ∧ n.x < f.x_max_value ∧ 0 < n.y ∧ n.y < f.y_max_value ∧
      n ∉ f.robots ∧ n ∉ f.walls ∧
      (n ∉ f.doors ∨ ∃ k, f.doors_keys.lookup n = some k ∧ k ∉ f.keys) := by
  unfold Field.passable
  cases h : f.doors_keys.lookup n <;>
    simp [h, and_assoc]

theorem mem_get_neighbors (f : Field) (p n : Point) :
    n ∈ f.get_neighbors p ↔
      (n = ⟨p.x, p.y + 1⟩ ∨ n = ⟨p.x + 1, p.y⟩ ∨
       n = ⟨p.x, p.y - 1⟩ ∨ n = ⟨p.x - 1, p.y⟩) ∧
      f.passable n = true := by
  simp only [Field.get_neighbors, Field.dirs, List.mem_filter,
    List.map_cons, List.map_nil, List.mem_cons, List.not_mem_nil, or_false]
  constructor
  · rintro ⟨h1, h2⟩
    refine ⟨?_, h2⟩
    rcases h1 with h | h | h | h <;> subst h <;>
      simp [Point.mk.injEq] <;> omega
  · rintro ⟨h1, h2⟩
    refine ⟨?_, h2⟩
    rcases h1 with h | h | h | h <;> subst h <;>
      simp [Point.mk.injEq] <;> omega

theorem get_neighbors_sublist (f : Field) (p : Point) :
    List.Sublist (f.get_neighbors p)
      [⟨p.x, p.y + 1⟩, ⟨p.x + 1, p.y⟩, ⟨p.x, p.y - 1⟩, ⟨p.x - 1, p.y⟩] := by
  have e : (Field.dirs.map fun d => Point.mk (p.x + d.1) (p.y + d.2)) =
      [⟨p.x, p.y + 1⟩, ⟨p.x + 1, p.y⟩, ⟨p.x, p.y - 1⟩, ⟨p.x - 1, p.y⟩] := by
    simp [Field.dirs, ← sub_eq_add_neg]
  unfold Field.get_neighbors
  rw [e]
  exact List.filter_sublist _

theorem get_neighbors_nodup (f : Field) (p : Point) :
    (f.get_neighbors p).Nodup := by
  refine (get_neighbors_sublist f p).nodup ?_
  simp [List.nodup_cons, Point.mk.injEq]
  omega

theorem get_neighbors_interior (f : Field) {p n : Point}
    (h : n ∈ f.get_neighbors p) :
    0 < n.x ∧ n.x < f.x_max_value ∧ 0 < n.y ∧ n.y < f.y_max_value := by
  have h2 := ((mem_get_neighbors f p n).mp h).2
  rw [passable_iff] at h2
  exact ⟨h2.1, h2.2.1, h2.2.2.1, h2.2.2.2.1⟩

theorem mem_interiorFinset (f : Field) (n : Point) :
    n ∈ interiorFinset f ↔
      0 < n.x ∧ n.x < f.x_max_value ∧ 0 < n.y ∧ n.y < f.y_max_value := by
  constructor
  · intro h
    simp only [interiorFinset, Finset.mem_map, Finset.mem_product,
      Finset.mem_Ioo, Function.Embedding.coeFn_mk] at h
    obtain ⟨⟨a, b⟩, ⟨⟨h1, h2⟩, h3, h4⟩, h5⟩ := h
    rw [← h5]
    exact ⟨h1, h2, h3, h4⟩
  · rintro ⟨h1, h2, h3, h4⟩
    simp only [interiorFinset, Finset.mem_map, Finset.mem_product,
      Finset.mem_Ioo, Function.Embedding.coeFn_mk]
    exact ⟨(n.x, n.y), ⟨⟨h1, h2⟩, h3, h4⟩, rfl⟩

theorem interiorFinset_card (f : Field) :
    (interiorFinset f).card = f.interiorCard := by
  simp [interiorFinset, Field.interiorCard, Int.card_Ioo]

/-! ### BFS correctness (`Field.get_nearest_key`) -/

theorem dval_mem_of_mem {dist : List (Point × Nat)} {p : Point}
    (h : p ∈ dist.map Prod.fst) : (p, dval dist p) ∈ dist := by
  have h1 : (dist.lookup p).isSome := (lookup_isSome_iff _ _).mpr h
  obtain ⟨n, hn⟩ := Option.isSome_iff_exists.mp h1
  have h2 := lookup_mem hn
  simpa [dval, hn] using h2

theorem dval_lookup_of_mem {dist : List (Point × Nat)} {p : Point}
    (h : p ∈ dist.map Prod.fst) : dist.lookup p = some (dval dist p) := by
  have h1 : (dist.lookup p).isSome := (lookup_isSome_iff _ _).mpr h
  obtain ⟨n, hn⟩ := Option.isSome_iff_exists.mp h1
  simp [dval, hn]

theorem steps_mem_of_closed (f : Field) (start : Point) (V : List Point)
    (hstart : start ∈ V)
    (hcl : ∀ p ∈ V, ∀ n ∈ f.get_neighbors p, n ∈ V) :
    ∀ {t : Point} {m : Nat}, Steps f start t m → t ∈ V := by
  intro t m h
  induction h with
  | refl => exact hstart
  | tail _ h2 ih => exact hcl _ ih _ h2

theorem frontier_bound (f : Field) (start : Point)
    (dist : List (Point × Nat)) (p : Point) (rest : List Point)
    (inv : BfsInv f start dist (p :: rest)) :
    ∀ {t : Point} {m : Nat}, Steps f start t m →
      t ∉ dist.map Prod.fst → dval dist p + 1 ≤ m := by
  intro t m h
  induction h with
  | refl => intro ht; exact absurd inv.startMem ht
  | @tail q r n h1 h2 ih =>
    intro ht
    by_cases hq : q ∈ dist.map Prod.fst
    · by_cases hqq : q ∈ p :: rest
      · have h3 : dval dist p ≤ dval dist q := by
          rcases List.mem_cons.mp hqq with h4 | h4
          · rw [h4]
          · exact (List.pairwise_cons.mp inv.sorted).1 q h4
        have h4 : dval dist q ≤ n :=
          (inv.exact _ (dval_mem_of_mem hq)).2 n h1
        omega
      · exact absurd (inv.closed q hq hqq r h2) ht
    · have h5 := ih hq
      omega

theorem bfsInv_step (f : Field) (start p : Point) (rest : List Point)
    (dist : List (Point × Nat)) (inv : BfsInv f start dist (p :: rest))
    (hkey : p ∉ f.keys) :
    BfsInv f start
      (dist ++ ((f.get_neighbors p).filter fun n =>
        (dist.lookup n).isNone).map fun n => (n, dval dist p + 1))
      (rest ++ (f.get_neighbors p).filter fun n =>
        (dist.lookup n).isNone) := by
  set fresh := (f.get_neighbors p).filter fun n => (dist.lookup n).isNone
    with hfresh
  have hfreshV : ∀ n ∈ fresh, n ∉ dist.map Prod.fst := by
    intro n hn
    have h1 := (List.mem_filter.mp hn).2
    rw [Option.isNone_iff_eq_none] at h1
    exact (lookup_eq_none_iff _ _).mp h1
  have hfreshN : ∀ n ∈ fresh, n ∈ f.get_neighbors p := fun n hn =>
    (List.mem_filter.mp hn).1
  have hfresh_nd : fresh.Nodup := (get_neighbors_nodup f p).filter _
  have hV' : (dist ++ fresh.map fun n => (n, dval dist p + 1)).map Prod.fst
      = dist.map Prod.fst ++ fresh := by
    rw [List.map_append, List.map_map]
    rw [show (Prod.fst ∘ fun n : Point => (n, dval dist p + 1)) = id from rfl]
    rw [List.map_id]
  have hpV : p ∈ dist.map Prod.fst := inv.qsub p (List.mem_cons_self _ _)
  have hrestV : ∀ q ∈ rest, q ∈ dist.map Prod.fst := fun q hq =>
    inv.qsub q (List.mem_cons_of_mem _ hq)
  have hpnr : p ∉ rest := (List.nodup_cons.mp inv.qnd).1
  have hpnf : p ∉ fresh := fun h => hfreshV p h hpV
  have hdold : ∀ q ∈ dist.map Prod.fst,
      dval (dist ++ fresh.map fun n => (n, dval dist p + 1)) q
        = dval dist q := by
    intro q hq
    unfold dval
    rw [lookup_append_left (dval_lookup_of_mem hq)]
    rfl
  have hdnew : ∀ n ∈ fresh,
      dval (dist ++ fresh.map fun n => (n, dval dist p + 1)) n
        = dval dist p + 1 := by
    intro n hn
    unfold dval
    rw [lookup_append_right ((lookup_eq_none_iff _ _).mpr (hfreshV n hn)),
      lookup_map_pair, if_pos hn]
    rfl
  refine ⟨?_, ?_, ?_, ?_, ?_, ?_, ?_, ?_, ?_⟩
  · rw [hV']
    exact List.nodup_append.mpr ⟨inv.nd, hfresh_nd,
      fun q hq hq2 => hfreshV q hq2 hq⟩
  · exact List.nodup_append.mpr ⟨(List.nodup_cons.mp inv.qnd).2, hfresh_nd,
      fun q hq hq2 => hfreshV q hq2 (hrestV q hq)⟩
  · intro q hq
    rw [hV']
    rcases List.mem_append.mp hq with h1 | h1
    · exact List.mem_append_left _ (hrestV q h1)
    · exact List.mem_append_right _ h1
  · rw [hV']
    exact List.mem_append_left _ inv.startMem
  · intro pn hpn
    rcases List.mem_append.mp hpn with h1 | h1
    · obtain ⟨h2, h3⟩ := inv.exact pn h1
      exact ⟨h2, h3⟩
    · obtain ⟨n, hn, h2⟩ := List.mem_map.mp h1
      rw [← h2]
      constructor
      · exact Steps.tail (inv.exact _ (dval_mem_of_mem hpV)).1 (hfreshN n hn)
      · intro m hm
        exact frontier_bound f start dist p rest inv hm (hfreshV n hn)
  · intro q hq hq2 n hn
    rw [hV'] at hq ⊢
    rcases List.mem_append.mp hq with h1 | h1
    · by_cases hqp : q = p
      · subst hqp
        by_cases h2 : (dist.lookup n).isNone
        · exact List.mem_append_right _
            (List.mem_filter.mpr ⟨hn, by simpa using h2⟩)
        · refine List.mem_append_left _ ?_
          rw [Option.isNone_iff_eq_none, ← Ne, Option.ne_none_iff_isSome] at h2
          exact (lookup_isSome_iff _ _).mp h2
      · have hq3 : q ∉ p :: rest := by
          intro h3
          rcases List.mem_cons.mp h3 with h4 | h4
          · exact hqp h4
          · exact hq2 (List.mem_append_left _ h4)
        exact List.mem_append_left _ (inv.closed q h1 hq3 n hn)
    · exact absurd (List.mem_append_right rest h1) hq2
  · intro q hq hq2
    rw [hV'] at hq
    rcases List.mem_append.mp hq with h1 | h1
    · by_cases hqp : q = p
      · subst hqp; exact hkey
      · refine inv.nokey q h1 ?_
        intro h3
        rcases List.mem_cons.mp h3 with h4 | h4
        · exact hqp h4
        · exact hq2 (List.mem_append_left _ h4)
    · exact absurd (List.mem_append_right rest h1) hq2
  · refine List.pairwise_append.mpr ⟨?_, ?_, ?_⟩
    · refine ((List.pairwise_cons.mp inv.sorted).2).imp_of_mem ?_
      intro a b ha hb h1
      rw [hdold a (hrestV a ha), hdold b (hrestV b hb)]
      exact h1
    · refine List.pairwise_of_forall_mem_list ?_
      intro a ha b hb
      rw [hdnew a ha, hdnew b hb]
    · intro a ha b hb
      rw [hdold a (hrestV a ha), hdnew b hb]
      have h1 := inv.spread a (List.mem_cons_of_mem _ ha) p
        (List.mem_cons_self _ _)
      have h2 : dval dist a ≤ dval dist p + 1 :=
        inv.spread p (List.mem_cons_self _ _) a (List.mem_cons_of_mem _ ha)
      exact h2
  · intro a ha b hb
    rcases List.mem_append.mp ha with h1 | h1 <;>
      rcases List.mem_append.mp hb with h2 | h2
    · rw [hdold a (hrestV a h1), hdold b (hrestV b h2)]
      exact inv.spread a (List.mem_cons_of_mem _ h1) b
        (List.mem_cons_of_mem _ h2)
    · rw [hdold a (hrestV a h1), hdnew b h2]
      have h3 : dval dist p ≤ dval dist a :=
        (List.pairwise_cons.mp inv.sorted).1 a h1
      omega
    · rw [hdnew a h1, hdold b (hrestV b h2)]
      have h3 : dval dist b ≤ dval dist p + 1 :=
        inv.spread p (List.mem_cons_self _ _) b (List.mem_cons_of_mem _ h2)
      omega
    · rw [hdnew a h1, hdnew b h2]
      omega

theorem bfsAux_spec (f : Field) (start : Point) :
    ∀ (fuel : Nat) (dist : List (Point × Nat)) (queue : List Point)
      (res : Option Path),
      BfsInv f start dist queue →
      Field.bfsAux f start fuel dist queue = some res →
      (∀ path, res = some path → path.start = start ∧ path.end_ ∈ f.keys ∧
          Steps f start path.end_ path.length ∧
          ∀ k m, k ∈ f.keys → Steps f start k m → path.length ≤ m) ∧
      (res = none → ∀ k m, k ∈ f.keys → ¬ Steps f start k m) := by
  intro fuel
  induction fuel with
  | zero =>
    intro dist queue res inv h
    simp [Field.bfsAux] at h
  | succ fuel ih =>
    intro dist queue res inv h
    cases queue with
    | nil =>
      rw [Field.bfsAux] at h
      injection h with h
      subst h
      constructor
      · intro path hpath
        exact absurd hpath (by simp)
      · intro _ k m hk hm
        have hcl : ∀ q ∈ dist.map Prod.fst, ∀ n ∈ f.get_neighbors q,
            n ∈ dist.map Prod.fst := by
          intro q hq n hn
          exact inv.closed q hq (List.not_mem_nil q) n hn
        have hmem := steps_mem_of_closed f start (dist.map Prod.fst)
          inv.startMem hcl hm
        exact inv.nokey k hmem (List.not_mem_nil k) hk
    | cons p rest =>
      have hpV : p ∈ dist.map Prod.fst := inv.qsub p (List.mem_cons_self _ _)
      by_cases hp : p ∈ f.keys
      · rw [Field.bfsAux, if_pos hp] at h
        injection h with h
        subst h
        constructor
        · intro path hpath
          injection hpath with hpath
          subst hpath
          refine ⟨rfl, hp, (inv.exact _ (dval_mem_of_mem hpV)).1, ?_⟩
          intro k m hk hm
          show dval dist p ≤ m
          by_cases hkV : k ∈ dist.map Prod.fst
          · by_cases hkq : k ∈ p :: rest
            · rcases List.mem_cons.mp hkq with h1 | h1
              · subst h1
                exact (inv.exact _ (dval_mem_of_mem hkV)).2 m hm
              · have h2 : dval dist p ≤ dval dist k :=
                  (List.pairwise_cons.mp inv.sorted).1 k h1
                have h3 : dval dist k ≤ m :=
                  (inv.exact _ (dval_mem_of_mem hkV)).2 m hm
                omega
            · exact absurd hk (inv.nokey k hkV hkq)
          · have h4 := frontier_bound f start dist p rest inv hm hkV
            omega
        · intro hno
          exact absurd hno (by simp)
      · rw [Field.bfsAux, if_neg hp] at h
        exact ih _ _ res (bfsInv_step f start p rest dist inv hp) h

theorem nodup_length_le_interior (f : Field) (start : Point) (V : List Point)
    (nd : V.Nodup) (hsub : ∀ q ∈ V, q = start ∨ q ∈ interiorFinset f) :
    V.length ≤ f.interiorCard + 1 := by
  have h1 : V.toFinset ⊆ insert start (interiorFinset f) := by
    intro q hq
    rcases hsub q (List.mem_toFinset.mp hq) with h | h
    · exact h ▸ Finset.mem_insert_self _ _
    · exact Finset.mem_insert_of_mem h
  have h2 := Finset.card_le_card h1
  rw [List.toFinset_card_of_nodup nd] at h2
  have h3 := Finset.card_insert_le start (interiorFinset f)
  rw [interiorFinset_card] at h3
  omega

theorem bfsAux_ne_none (f : Field) (start : Point) :
    ∀ (fuel : Nat) (dist : List (Point × Nat)) (queue : List Point),
      (dist.map Prod.fst).Nodup →
      (∀ q ∈ dist.map Prod.fst, q = start ∨ q ∈ interiorFinset f) →
      2 * (f.interiorCard + 1 - dist.length) + queue.length + 1 ≤ fuel →
      Field.bfsAux f start fuel dist queue ≠ none := by
  intro fuel
  induction fuel with
  | zero =>
    intro dist queue _ _ hF
    omega
  | succ fuel ih =>
    intro dist queue nd hsub hF
    cases queue with
    | nil => simp [Field.bfsAux]
    | cons p rest =>
      by_cases hp : p ∈ f.keys
      · simp [Field.bfsAux, hp]
      · rw [Field.bfsAux, if_neg hp]
        set fresh := (f.get_neighbors p).filter fun n =>
          (dist.lookup n).isNone with hfresh
        have hfreshV : ∀ n ∈ fresh, n ∉ dist.map Prod.fst := by
          intro n hn
          have h1 := (List.mem_filter.mp hn).2
          rw [Option.isNone_iff_eq_none] at h1
          exact (lookup_eq_none_iff _ _).mp h1
        have hfresh_nd : fresh.Nodup := (get_neighbors_nodup f p).filter _
        have hV' : (dist ++ fresh.map fun n =>
            (n, dval dist p + 1)).map Prod.fst
            = dist.map Prod.fst ++ fresh := by
          rw [List.map_append, List.map_map]
          rw [show (Prod.fst ∘ fun n : Point =>
            (n, dval dist p + 1)) = id from rfl]
          rw [List.map_id]
        have nd' : ((dist ++ fresh.map fun n =>
            (n, dval dist p + 1)).map Prod.fst).Nodup := by
          rw [hV']
          exact List.nodup_append.mpr ⟨nd, hfresh_nd,
            fun q hq hq2 => hfreshV q hq2 hq⟩
        have hsub' : ∀ q ∈ (dist ++ fresh.map fun n =>
            (n, dval dist p + 1)).map Prod.fst,
            q = start ∨ q ∈ interiorFinset f := by
          rw [hV']
          intro q hq
          rcases List.mem_append.mp hq with h1 | h1
          · exact hsub q h1
          · right
            have h2 := get_neighbors_interior f ((List.mem_filter.mp h1).1)
            exact (mem_interiorFinset f q).mpr h2
        have hlen : (dist ++ (fresh.map fun n =>
            (n, dval dist p + 1))).length
            = dist.length + fresh.length := by
          rw [List.length_append, List.length_map]
        have hle : dist.length + fresh.length ≤ f.interiorCard + 1 := by
          have := nodup_length_le_interior f start _ nd' hsub'
          rw [hV', List.length_append, List.length_map] at this
          omega
        show Field.bfsAux f start fuel
          (dist ++ fresh.map fun n => (n, dval dist p + 1))
          (rest ++ fresh) ≠ none
        apply ih
        · exact nd'
        · exact hsub'
        · rw [hlen, List.length_append]
          simp only [List.length_cons] at hF
          omega

theorem bfsInv_init (f : Field) (r : Point) : BfsInv f r [(r, 0)] [r] := by
  refine ⟨by simp, by simp, by simp, by simp, ?_, ?_, ?_, ?_, ?_⟩
  · intro pn hpn
    rw [List.mem_singleton] at hpn
    subst hpn
    exact ⟨Steps.refl r, fun m _ => Nat.zero_le m⟩
  · intro q hq hq2 n _
    rw [List.map_cons, List.map_nil, List.mem_singleton] at hq
    exact absurd (hq ▸ List.mem_singleton_self r) hq2
  · intro q hq hq2
    rw [List.map_cons, List.map_nil, List.mem_singleton] at hq
    exact absurd (hq ▸ List.mem_singleton_self r) hq2
  · simp
  · intro a ha b hb
    rw [List.mem_singleton] at ha hb
    subst ha; subst hb
    omega

theorem bfs_run_some (f : Field) (r : Point) :
    ∃ res, Field.bfsAux f r (2 * (f.interiorCard + 1))
      [(r, 0)] [r] = some res := by
  have h := bfsAux_ne_none f r (2 * (f.interiorCard + 1)) [(r, 0)] [r]
    (by simp) (by simp) (by simp; omega)
  cases heq : Field.bfsAux f r (2 * (f.interiorCard + 1)) [(r, 0)] [r] with
  | none => exact absurd heq h
  | some res => exact ⟨res, rfl⟩

theorem get_nearest_key_some_spec (f : Field) (r : Point) {path : Path}
    (h : f.get_nearest_key r = some path) :
    path.start = r ∧ path.end_ ∈ f.keys ∧
    Steps f r path.end_ path.length ∧
    ∀ k m, k ∈ f.keys → Steps f r k m → path.length ≤ m := by
  obtain ⟨res, hres⟩ := bfs_run_some f r
  have hspec := bfsAux_spec f r _ _ _ res (bfsInv_init f r) hres
  unfold Field.get_nearest_key at h
  rw [hres] at h
  cases res with
  | none =>
    rw [show (some (none : Option Path)).join = none from rfl] at h
    exact absurd h (by simp)
  | some path' =>
    rw [show (some (some path')).join = some path' from rfl] at h
    exact hspec.1 path h

theorem get_nearest_key_none_iff (f : Field) (r : Point) :
    f.get_nearest_key r = none ↔
      ∀ k m, k ∈ f.keys → ¬ Steps f r k m := by
  obtain ⟨res, hres⟩ := bfs_run_some f r
  have hspec := bfsAux_spec f r _ _ _ res (bfsInv_init f r) hres
  unfold Field.get_nearest_key
  rw [hres]
  cases res with
  | none =>
    rw [show (some (none : Option Path)).join = none from rfl]
    exact ⟨fun _ => hspec.2 rfl, fun _ => rfl⟩
  | some path =>
    rw [show (some (some path)).join = some path from rfl]
    obtain ⟨_, h2, h3, _⟩ := hspec.1 path rfl
    constructor
    · intro h5
      exact absurd h5 (by simp)
    · intro hno
      exact absurd h3 (hno path.end_ path.length h2)

/-! ### collect_key lemmas -/

theorem toFinset_erase_of_nodup {l : List Point} (nd : l.Nodup) (a : Point) :
    (l.erase a).toFinset = l.toFinset.erase a := by
  ext b
  rw [List.mem_toFinset, Finset.mem_erase, List.mem_toFinset,
    List.Nodup.mem_erase_iff nd]

theorem insertSet_toFinset (l : List Point) (p : Point) :
    (Field.insertSet l p).toFinset = insert p l.toFinset := by
  unfold Field.insertSet
  split
  · rename_i h
    rw [Finset.insert_eq_self.mpr (List.mem_toFinset.mpr h)]
  · rw [List.toFinset_append, Finset.union_comm]
    simp [Finset.insert_eq]

theorem collect_key_isSome_iff (f : Field) (r k : Point) :
    (f.collect_key r k).isSome ↔ r ∈ f.robots ∧ k ∈ f.keys := by
  by_cases hr : r ∈ f.robots <;> by_cases hk : k ∈ f.keys <;>
    simp [Field.collect_key, hr, hk]

theorem collect_key_some (f : Field) (r k : Point) (hr : r ∈ f.robots)
    (hk : k ∈ f.keys) :
    f.collect_key r k =
      some ⟨Field.insertSet (f.robots.erase r) k, f.keys.erase k,
        f.doors_keys, f.doors, f.walls, f.x_max_value, f.y_max_value⟩ := by
  simp [Field.collect_key, hr, hk]

/-! ### Constructor lemmas -/

theorem gridCells_nodup (data : List (List Char)) :
    ((gridCells data).map Prod.fst).Nodup := by
  unfold gridCells
  rw [List.map_flatten, List.map_map]
  rw [List.nodup_flatten]
  constructor
  · intro l hl
    simp only [List.mem_map, Function.comp] at hl
    obtain ⟨yr, _, hyr⟩ := hl
    rw [← hyr, List.map_map]
    rw [show (Prod.fst ∘ fun xc : Nat × Char =>
        (Point.mk (xc.1 : Int) (yr.1 : Int), xc.2)) =
        ((fun n : Nat => Point.mk (n : Int) (yr.1 : Int)) ∘ Prod.fst)
        from rfl]
    rw [← List.map_map, List.enum_map_fst]
    refine (List.nodup_range _).map ?_
    intro a b hab
    have h1 := (Point.mk.injEq .. ▸ hab).1
    exact Int.ofNat_inj.mp h1
  · rw [List.pairwise_map]
    have h1 : List.Pairwise (fun a b : Nat × List Char => a.1 ≠ b.1)
        data.enum := by
      rw [← List.pairwise_map (f := Prod.fst)]
      exact List.enum_map_fst data ▸ List.nodup_range _
    refine h1.imp_of_mem ?_
    intro a b _ _ hab
    intro q hqa hqb
    simp only [List.map_map, List.mem_map, Function.comp] at hqa hqb
    obtain ⟨xc, _, hxc⟩ := hqa
    obtain ⟨xc', _, hxc'⟩ := hqb
    apply hab
    have ha : q.y = (a.1 : Int) := by rw [← hxc]
    have hb : q.y = (b.1 : Int) := by rw [← hxc']
    exact Int.ofNat_inj.mp (ha ▸ hb)

theorem filtered_fst_nodup (data : List (List Char))
    (pred : Point × Char → Bool) :
    (((gridCells data).filter pred).map Prod.fst).Nodup :=
  (gridCells_nodup data).sublist ((List.filter_sublist _).map Prod.fst)

theorem mkField_inv {data : List (List Char)} {f : Field}
    (h : mkField data = some f) :
    f.robots = ((gridCells data).filter fun pc =>
      fromString pc.2 = some .robot).map Prod.fst ∧
    f.keys = ((gridCells data).filter fun pc =>
      fromString pc.2 = some .key).map Prod.fst ∧
    f.doors = ((gridCells data).filter fun pc =>
      fromString pc.2 = some .door).map Prod.fst ∧
    doorEntries (gridCells data) ((gridCells data).filter fun pc =>
      fromString pc.2 = some .door) = some f.doors_keys := by
  cases data with
  | nil => exact absurd h (by simp [mkField])
  | cons row0 rows =>
    simp only [mkField] at h
    by_cases hall : (gridCells (row0 :: rows)).all fun pc =>
        (fromString pc.2).isSome
    · rw [if_pos hall] at h
      cases hde : doorEntries (gridCells (row0 :: rows))
          ((gridCells (row0 :: rows)).filter fun pc =>
            fromString pc.2 = some .door) with
      | none => rw [hde] at h; exact absurd h (by simp)
      | some dk =>
        rw [hde] at h
        injection h with h
        subst h
        exact ⟨rfl, rfl, rfl, rfl⟩
    · rw [if_neg hall] at h
      exact absurd h (by simp)

theorem doorEntries_map_fst (cells : List (Point × Char)) :
    ∀ (l : List (Point × Char)) (dk : List (Point × Point)),
      doorEntries cells l = some dk → dk.map Prod.fst = l.map Prod.fst := by
  intro l
  induction l with
  | nil =>
    intro dk h
    rw [doorEntries] at h
    injection h with h
    subst h
    rfl
  | cons pc rest ih =>
    intro dk h
    rw [doorEntries] at h
    cases hk : keyFor cells pc.2.toLower with
    | none => rw [hk] at h; exact absurd h (by simp)
    | some k =>
      rw [hk] at h
      cases hde : doorEntries cells rest with
      | none => rw [hde] at h; exact absurd h (by simp)
      | some tl =>
        rw [hde] at h
        injection h with h
        subst h
        rw [List.map_cons, List.map_cons, ih tl hde]

theorem doorEntries_none_of_missing (cells : List (Point × Char)) :
    ∀ (l : List (Point × Char)) (pc : Point × Char), pc ∈ l →
      keyFor cells pc.2.toLower = none → doorEntries cells l = none := by
  intro l
  induction l with
  | nil => intro pc h; exact absurd h (List.not_mem_nil pc)
  | cons hd rest ih =>
    intro pc hmem hk
    rw [doorEntries]
    rcases List.mem_cons.mp hmem with h1 | h1
    · subst h1
      rw [hk]
    · rw [ih pc h1 hk]
      cases keyFor cells hd.2.toLower <;> rfl

theorem mkField_doors_covered {data : List (List Char)} {f : Field}
    (h : mkField data = some f) :
    ∀ d ∈ f.doors, (f.doors_keys.lookup d).isSome := by
  obtain ⟨_, _, hdoors, hde⟩ := mkField_inv h
  intro d hd
  rw [lookup_isSome_iff, doorEntries_map_fst _ _ _ hde, ← hdoors]
  exact hd

theorem mkField_keys_nodup {data : List (List Char)} {f : Field}
    (h : mkField data = some f) : f.keys.Nodup := by
  obtain ⟨_, hkeys, _, _⟩ := mkField_inv h
  rw [hkeys]
  exact filtered_fst_nodup data _

theorem mkField_robots_nodup {data : List (List Char)} {f : Field}
    (h : mkField data = some f) : f.robots.Nodup := by
  obtain ⟨hrob, _, _, _⟩ := mkField_inv h
  rw [hrob]
  exact filtered_fst_nodup data _

/-! ### Solve-loop lemmas -/

theorem insertSet_length_le (l : List Point) (p : Point) :
    (Field.insertSet l p).length ≤ l.length + 1 := by
  unfold Field.insertSet
  split
  · omega
  · simp

theorem expand_nil (f : Field) (steps : Nat) (visited : List FieldState) :
    expand f steps [] visited = some (visited, [], []) := rfl

theorem expand_cons_none {f : Field} {steps : Nat} {robot : Point}
    {robs : List Point} {visited : List FieldState}
    (h : f.get_nearest_key robot = none) :
    expand f steps (robot :: robs) visited =
      expand f steps robs visited := by
  rw [expand, h]

theorem expand_cons_seen {f : Field} {steps : Nat} {robot : Point}
    {robs : List Point} {visited : List FieldState} {path : Path}
    {nf : Field}
    (h1 : f.get_nearest_key robot = some path)
    (h2 : f.copy.collect_key path.start path.end_ = some nf)
    (h3 : nf.dump ∈ visited) :
    expand f steps (robot :: robs) visited =
      expand f steps robs visited := by
  simp only [expand, h1, h2]
  rw [if_pos h3]

theorem expand_cons_new {f : Field} {steps : Nat} {robot : Point}
    {robs : List Point} {visited : List FieldState} {path : Path}
    {nf : Field}
    (h1 : f.get_nearest_key robot = some path)
    (h2 : f.copy.collect_key path.start path.end_ = some nf)
    (h3 : nf.dump ∉ visited) :
    expand f steps (robot :: robs) visited =
      match expand f steps robs (nf.dump :: visited) with
      | none => none
      | some (v', adds, nds) =>
        some (v', ⟨nf, steps + path.length⟩ :: adds, nf.dump :: nds) := by
  simp only [expand, h1, h2]
  rw [if_neg h3]

/-- The field produced by `collect_key` on a copy, in explicit form. -/
theorem collect_key_copy {f : Field} {robot : Point} {path : Path}
    (h : f.get_nearest_key robot = some path) (hrob : robot ∈ f.robots) :
    f.copy.collect_key path.start path.end_ =
      some ⟨Field.insertSet (f.robots.erase path.start) path.end_,
        f.keys.erase path.end_, f.doors_keys, f.doors, f.walls,
        f.x_max_value, f.y_max_value⟩ := by
  obtain ⟨hstart, hend, _, _⟩ := get_nearest_key_some_spec f robot h
  have hrs : path.start ∈ f.copy.robots := by
    show path.start ∈ f.robots
    rw [hstart]
    exact hrob
  exact collect_key_some f.copy path.start path.end_ hrs hend

theorem expand_basic (f : Field) (steps : Nat) :
    ∀ (robs : List Point) (visited : List FieldState),
      (∀ r ∈ robs, r ∈ f.robots) →
      (expand f steps robs visited ≠ none) ∧
      ∀ v' adds nds, expand f steps robs visited = some (v', adds, nds) →
        adds.length ≤ robs.length ∧
        ∀ st ∈ adds, st.field.robots.length ≤ f.robots.length ∧
          st.field.keys.length + 1 = f.keys.length := by
  intro robs
  induction robs with
  | nil =>
    intro visited _
    refine ⟨by simp [expand_nil], ?_⟩
    intro v' adds nds h
    rw [expand_nil] at h
    injection h with h
    simp only [Prod.mk.injEq] at h
    obtain ⟨-, h2, -⟩ := h
    subst h2
    simp
  | cons robot robs ih =>
    intro visited hsub
    have hsub' : ∀ r ∈ robs, r ∈ f.robots := fun r hr =>
      hsub r (List.mem_cons_of_mem _ hr)
    have hrob : robot ∈ f.robots := hsub robot (List.mem_cons_self _ _)
    cases hnk : f.get_nearest_key robot with
    | none =>
      rw [expand_cons_none hnk]
      obtain ⟨hne, hprops⟩ := ih visited hsub'
      refine ⟨hne, ?_⟩
      intro v' adds nds h
      obtain ⟨hlen, hmem⟩ := hprops v' adds nds h
      exact ⟨by simpa using Nat.le_succ_of_le hlen, hmem⟩
    | some path =>
      obtain ⟨hstart, hend, _, _⟩ := get_nearest_key_some_spec f robot hnk
      have hck := collect_key_copy hnk hrob
      set nf : Field := ⟨Field.insertSet (f.robots.erase path.start)
        path.end_, f.keys.erase path.end_, f.doors_keys,
        f.doors, f.walls, f.x_max_value, f.y_max_value⟩ with hnf
      have hps : path.start ∈ f.robots := hstart ▸ hrob
      have hnfr : nf.robots.length ≤ f.robots.length := by
        show (Field.insertSet (f.robots.erase path.start)
          path.end_).length ≤ f.robots.length
        have h1 := insertSet_length_le (f.robots.erase path.start) path.end_
        have h2 := List.length_erase_of_mem hps
        have h3 : 1 ≤ f.robots.length := List.length_pos.mpr
          (List.ne_nil_of_mem hps)
        omega
      have hnfk : nf.keys.length + 1 = f.keys.length := by
        show (f.keys.erase path.end_).length + 1 = f.keys.length
        have h1 := List.length_erase_of_mem hend
        have h2 : 1 ≤ f.keys.length := List.length_pos.mpr
          (List.ne_nil_of_mem hend)
        omega
      by_cases hd : nf.dump ∈ visited
      · rw [expand_cons_seen hnk hck hd]
        obtain ⟨hne, hprops⟩ := ih visited hsub'
        refine ⟨hne, ?_⟩
        intro v' adds nds h
        obtain ⟨hlen, hmem⟩ := hprops v' adds nds h
        exact ⟨by simpa using Nat.le_succ_of_le hlen, hmem⟩
      · rw [expand_cons_new hnk hck hd]
        obtain ⟨hne, hprops⟩ := ih (nf.dump :: visited) hsub'
        cases hre : expand f steps robs (nf.dump :: visited) with
        | none => exact absurd hre hne
        | some triple =>
          obtain ⟨v', adds, nds⟩ := triple
          refine ⟨by simp, ?_⟩
          intro v'' adds' nds' h
          simp only [Option.some_inj, Prod.mk.injEq] at h
          obtain ⟨-, h2, h3⟩ := h
          subst h2
          obtain ⟨hlen, hmem⟩ := hprops v' adds nds hre
          constructor
          · simpa using Nat.succ_le_succ hlen
          · intro st hst
            rcases List.mem_cons.mp hst with h1 | h1
            · subst h1
              exact ⟨hnfr, hnfk⟩
            · exact hmem st h1

theorem expand_dumps (f : Field) (steps : Nat) (hknd : f.keys.Nodup) :
    ∀ (robs : List Point) (visited : List FieldState),
      (∀ r ∈ robs, r ∈ f.robots) →
      ∀ v' adds nds, expand f steps robs visited = some (v', adds, nds) →
        nds.Nodup ∧
        (∀ d ∈ nds, d ∉ visited) ∧
        (∀ d, d ∈ v' ↔ d ∈ nds ∨ d ∈ visited) ∧
        (∀ d ∈ nds, d.keys.card + 1 = f.keys.toFinset.card) ∧
        (∀ st ∈ adds, st.field.keys.Nodup ∧
          st.field.keys.toFinset.card + 1 = f.keys.toFinset.card) := by
  intro robs
  induction robs with
  | nil =>
    intro visited _ v' adds nds h
    rw [expand_nil] at h
    simp only [Option.some_inj, Prod.mk.injEq] at h
    obtain ⟨h1, h2, h3⟩ := h
    subst h1
    subst h2
    subst h3
    refine ⟨List.nodup_nil, by simp, by simp, by simp, by simp⟩
  | cons robot robs ih =>
    intro visited hsub v'' adds' nds' h
    have hsub' : ∀ r ∈ robs, r ∈ f.robots := fun r hr =>
      hsub r (List.mem_cons_of_mem _ hr)
    have hrob : robot ∈ f.robots := hsub robot (List.mem_cons_self _ _)
    cases hnk : f.get_nearest_key robot with
    | none =>
      rw [expand_cons_none hnk] at h
      exact ih visited hsub' v'' adds' nds' h
    | some path =>
      obtain ⟨hstart, hend, _, _⟩ := get_nearest_key_some_spec f robot hnk
      have hck := collect_key_copy hnk hrob
      set nf : Field := ⟨Field.insertSet (f.robots.erase path.start)
        path.end_, f.keys.erase path.end_, f.doors_keys,
        f.doors, f.walls, f.x_max_value, f.y_max_value⟩ with hnf
      have hendF : path.end_ ∈ f.keys.toFinset := List.mem_toFinset.mpr hend
      have hcard1 : 1 ≤ f.keys.toFinset.card :=
        Finset.card_pos.mpr ⟨path.end_, hendF⟩
      have hnfkeys : nf.keys.toFinset = f.keys.toFinset.erase path.end_ := by
        show (f.keys.erase path.end_).toFinset = _
        exact toFinset_erase_of_nodup hknd path.end_
      have hnfcard : nf.keys.toFinset.card + 1 = f.keys.toFinset.card := by
        rw [hnfkeys, Finset.card_erase_of_mem hendF]
        omega
      have hnfnd : nf.keys.Nodup := hknd.erase path.end_
      have hdumpkeys : nf.dump.keys = nf.keys.toFinset := rfl
      by_cases hd : nf.dump ∈ visited
      · rw [expand_cons_seen hnk hck hd] at h
        exact ih visited hsub' v'' adds' nds' h
      · rw [expand_cons_new hnk hck hd] at h
        cases hre : expand f steps robs (nf.dump :: visited) with
        | none =>
          rw [hre] at h
          exact absurd h (by simp)
        | some triple =>
          obtain ⟨v', adds, nds⟩ := triple
          rw [hre] at h
          simp only [Option.some_inj, Prod.mk.injEq] at h
          obtain ⟨h1, h2, h3⟩ := h
          subst h1
          subst h2
          subst h3
          obtain ⟨ind, imem, iiff, icard, iadds⟩ :=
            ih (nf.dump :: visited) hsub' v' adds nds hre
          refine ⟨?_, ?_, ?_, ?_, ?_⟩
          · rw [List.nodup_cons]
            refine ⟨?_, ind⟩
            intro hmem
            exact (imem nf.dump hmem) (List.mem_cons_self _ _)
          · intro d hdm
            rcases List.mem_cons.mp hdm with h4 | h4
            · subst h4
              exact hd
            · intro h5
              exact imem d h4 (List.mem_cons_of_mem _ h5)
          · intro d
            rw [iiff d, List.mem_cons, List.mem_cons]
            tauto
          · intro d hdm
            rcases List.mem_cons.mp hdm with h4 | h4
            · subst h4
              rw [hdumpkeys]
              exact hnfcard
            · exact icard d h4
          · intro st hst
            rcases List.mem_cons.mp hst with h4 | h4
            · subst h4
              exact ⟨hnfnd, hnfcard⟩
            · exact iadds st h4

theorem solveLoop_nil (fuel : Nat) (visited : List FieldState)
    (result : Option Nat) (terms : List Nat) (enqs : List FieldState) :
    solveLoop (fuel + 1) visited [] result terms enqs
      = some (result, terms, enqs) := rfl

theorem solveLoop_term {fuel : Nat} {visited : List FieldState} {st : State}
    {rest : List State} {result : Option Nat} {terms : List Nat}
    {enqs : List FieldState} (h : st.field.keys_count = 0) :
    solveLoop (fuel + 1) visited (st :: rest) result terms enqs =
      solveLoop fuel visited rest (pyMin result st.steps)
        (terms ++ [st.steps]) enqs := by
  rw [solveLoop, if_pos h]

theorem solveLoop_exp {fuel : Nat} {visited v' : List FieldState}
    {st : State} {rest : List State} {result : Option Nat}
    {terms : List Nat} {enqs nds : List FieldState} {adds : List State}
    (h : ¬ st.field.keys_count = 0)
    (h2 : expand st.field st.steps st.field.robots visited
      = some (v', adds, nds)) :
    solveLoop (fuel + 1) visited (st :: rest) result terms enqs =
      solveLoop fuel v' (rest ++ adds) result terms (enqs ++ nds) := by
  rw [solveLoop, if_neg h, h2]

theorem weight_pos (st : State) : 1 ≤ weight st :=
  Nat.one_le_pow _ _ (Nat.succ_pos _)

theorem solveLoop_ne_none :
    ∀ (fuel : Nat) (visited : List FieldState) (queue : List State)
      (result : Option Nat) (terms : List Nat) (enqs : List FieldState),
      ((queue.map weight).sum + 1 ≤ fuel) →
      solveLoop fuel visited queue result terms enqs ≠ none := by
  intro fuel
  induction fuel with
  | zero =>
    intro visited queue result terms enqs hF
    omega
  | succ fuel ih =>
    intro visited queue result terms enqs hF
    cases queue with
    | nil => rw [solveLoop_nil]; simp
    | cons st rest =>
      rw [List.map_cons, List.sum_cons] at hF
      by_cases ht : st.field.keys_count = 0
      · rw [solveLoop_term ht]
        apply ih
        have hw := weight_pos st
        omega
      · have hex := expand_basic st.field st.steps st.field.robots visited
          (fun r h => h)
        cases hre : expand st.field st.steps st.field.robots visited with
        | none => exact absurd hre hex.1
        | some triple =>
          obtain ⟨v', adds, nds⟩ := triple
          rw [solveLoop_exp ht hre]
          apply ih
          obtain ⟨hlen, hmem⟩ := hex.2 v' adds nds hre
          have hK : 1 ≤ st.field.keys.length := by
            have := ht
            unfold Field.keys_count at this
            omega
          set R := st.field.robots.length with hR
          set K := st.field.keys.length with hK2
          have hbound : ∀ w ∈ adds.map weight, w ≤ (R + 1) ^ (K - 1) := by
            intro w hw
            obtain ⟨st', hst', hw2⟩ := List.mem_map.mp hw
            obtain ⟨h5, h6⟩ := hmem st' hst'
            rw [← hw2]
            unfold weight
            have h7 : st'.field.keys.length = K - 1 := by omega
            rw [h7]
            exact Nat.pow_le_pow_left (by omega) _
          have hsum : (adds.map weight).sum ≤
              adds.length * ((R + 1) ^ (K - 1)) := by
            have := List.sum_le_card_nsmul (adds.map weight)
              ((R + 1) ^ (K - 1)) hbound
            simpa [smul_eq_mul] using this
          have hwst : weight st = (R + 1) * (R + 1) ^ (K - 1) := by
            unfold weight
            rw [← hR, ← hK2]
            conv_lhs => rw [show K = (K - 1) + 1 from by omega]
            rw [pow_succ]
            ring
          have hBpos : 1 ≤ (R + 1) ^ (K - 1) :=
            Nat.one_le_pow _ _ (Nat.succ_pos _)
          rw [List.map_append, List.sum_append]
          have hmul : adds.length * ((R + 1) ^ (K - 1)) ≤
              R * ((R + 1) ^ (K - 1)) :=
            Nat.mul_le_mul_right _ hlen
          have hsucc : (R + 1) * ((R + 1) ^ (K - 1)) =
              R * ((R + 1) ^ (K - 1)) + (R + 1) ^ (K - 1) := by ring
          omega

theorem solveLoop_enqs_nodup (K0 : Nat) :
    ∀ (fuel : Nat) (visited : List FieldState) (queue : List State)
      (result : Option Nat) (terms : List Nat) (enqs : List FieldState)
      (r : Option Nat) (terms' : List Nat) (enqs' : List FieldState),
      enqs.Nodup →
      (∀ d ∈ enqs, d ∈ visited) →
      (∀ d ∈ enqs, d.keys.card < K0) →
      (∀ st ∈ queue, st.field.keys.Nodup ∧
        st.field.keys.toFinset.card ≤ K0) →
      solveLoop fuel visited queue result terms enqs
        = some (r, terms', enqs') →
      enqs'.Nodup ∧ ∀ d ∈ enqs', d.keys.card < K0 := by
  intro fuel
  induction fuel with
  | zero =>
    intro visited queue result terms enqs r terms' enqs' _ _ _ _ h
    exact absurd h (by rw [solveLoop]; simp)
  | succ fuel ih =>
    intro visited queue result terms enqs r terms' enqs'
      hnd hvis hcard hq h
    cases queue with
    | nil =>
      rw [solveLoop_nil] at h
      simp only [Option.some_inj, Prod.mk.injEq] at h
      obtain ⟨-, -, h3⟩ := h
      subst h3
      exact ⟨hnd, hcard⟩
    | cons st rest =>
      have hqrest : ∀ st' ∈ rest, st'.field.keys.Nodup ∧
          st'.field.keys.toFinset.card ≤ K0 := fun st' hst' =>
        hq st' (List.mem_cons_of_mem _ hst')
      obtain ⟨hstnd, hstcard⟩ := hq st (List.mem_cons_self _ _)
      by_cases ht : st.field.keys_count = 0
      · rw [solveLoop_term ht] at h
        exact ih visited rest _ _ enqs r terms' enqs' hnd hvis hcard
          hqrest h
      · cases hre : expand st.field st.steps st.field.robots visited with
        | none =>
          exact absurd hre
            (expand_basic st.field st.steps st.field.robots visited
              (fun x hx => hx)).1
        | some triple =>
          obtain ⟨v', adds, nds⟩ := triple
          rw [solveLoop_exp ht hre] at h
          obtain ⟨end_nd, end_vis, end_iff, end_card, end_adds⟩ :=
            expand_dumps st.field st.steps hstnd st.field.robots visited
              (fun x hx => hx) v' adds nds hre
          have hK1 : 1 ≤ st.field.keys.toFinset.card := by
            have h1 : st.field.keys ≠ [] := by
              intro h2
              exact ht (by simp [Field.keys_count, h2])
            obtain ⟨k, hk⟩ := List.exists_mem_of_ne_nil _ h1
            exact Finset.card_pos.mpr ⟨k, List.mem_toFinset.mpr hk⟩
          refine ih v' (rest ++ adds) result terms (enqs ++ nds)
            r terms' enqs' ?_ ?_ ?_ ?_ h
          · rw [List.nodup_append]
            refine ⟨hnd, end_nd, ?_⟩
            intro d hdm hdm2
            exact end_vis d hdm2 (hvis d hdm)
          · intro d hdm
            rcases List.mem_append.mp hdm with h1 | h1
            · exact (end_iff d).mpr (Or.inr (hvis d h1))
            · exact (end_iff d).mpr (Or.inl h1)
          · intro d hdm
            rcases List.mem_append.mp hdm with h1 | h1
            · exact hcard d h1
            · have h2 := end_card d h1
              omega
          · intro st' hst'
            rcases List.mem_append.mp hst' with h1 | h1
            · exact hqrest st' h1
            · obtain ⟨h2, h3⟩ := end_adds st' h1
              exact ⟨h2, by omega⟩

theorem solveTrace_enqs_nodup {data : List (List Char)} {f : Field}
    {r : Option Nat} {terms : List Nat} {enqs : List FieldState}
    (hf : mkField data = some f)
    (h : solveTrace data = some (r, terms, enqs)) :
    (f.dump :: enqs).Nodup := by
  unfold solveTrace at h
  rw [hf] at h
  have h2 : solveLoop (solveFuel f) [] [⟨f, 0⟩] none [] []
      = some (r, terms, enqs) := h
  have hmain := solveLoop_enqs_nodup (f.keys.toFinset.card) (solveFuel f)
    [] [⟨f, 0⟩] none [] [] r terms enqs (by simp) (by simp) (by simp)
    ?_ h2
  · rw [List.nodup_cons]
    refine ⟨?_, hmain.1⟩
    intro hmem
    have h3 := hmain.2 f.dump hmem
    have h4 : f.dump.keys = f.keys.toFinset := rfl
    rw [h4] at h3
    omega
  · intro st hst
    rw [List.mem_singleton] at hst
    subst hst
    exact ⟨mkField_keys_nodup hf, le_refl _⟩

/-!
## Claim theorems

One theorem (plus witness or counterexample where required) per claim of
the specification audit.
-/

/-- Claim C1 (code bug, evaluation at the failing input): on a grid whose
single key is walled off from the single robot, the work queue empties
without any terminal node, and `solve` returns the `float("inf")` value
(modelled `some none`) instead of the `0` the claim states.  The guard
`result is not float("inf")` on line 178 of run2.py compares object
identity against a freshly constructed float, so it is always true and the
`else 0` branch is dead code, contradicting the declared `-> int` return
type and the evident intent. -/
theorem solve_no_terminal_returns_infinity :
    solve dataUnreachable = some none := by decide

/-- Claim C2: `get_nearest_key` returns a path from the robot to an
uncollected key of minimal BFS distance (unit cost per hop, under the
current lock/occupancy state as encoded by `get_neighbors`), carrying that
distance; and it returns `none` exactly when no uncollected key is
reachable from the robot. -/
theorem get_nearest_key_correct (f : Field) (r : Point) :
    (∀ path, f.get_nearest_key r = some path →
      path.start = r ∧ path.end_ ∈ f.keys ∧
      Steps f r path.end_ path.length ∧
      ∀ k m, k ∈ f.keys → Steps f r k m → path.length ≤ m) ∧
    (f.get_nearest_key r = none ↔
      ∀ k m, k ∈ f.keys → ¬ Steps f r k m) :=
  ⟨fun _ h => get_nearest_key_some_spec f r h, get_nearest_key_none_iff f r⟩

/-- Claim C2 witness: on the fixture field, the robot at column 5 is routed
to the key at column 7 at distance 2, which is minimal. -/
theorem get_nearest_key_correct_witness : (2 : Nat) ≤ 2 := by
  have s1 : Steps field9 ⟨5, 1⟩ ⟨6, 1⟩ 1 :=
    Steps.tail (Steps.refl _) (by decide)
  have s2 : Steps field9 ⟨5, 1⟩ ⟨7, 1⟩ 2 := Steps.tail s1 (by decide)
  have h := (get_nearest_key_correct field9 ⟨5, 1⟩).1
    ⟨2, ⟨5, 1⟩, ⟨7, 1⟩⟩ (by decide)
  exact h.2.2.2 ⟨7, 1⟩ 2 (by decide) s2

/-- Claim C3: over a whole run of `solve`, every configuration signature is
enqueued at most once — the list of signatures marked visited (one per
enqueued child) together with the initial signature has no duplicates; a
child whose signature is already visited is discarded regardless of its
cumulative distance. -/
theorem signature_enqueued_once (data : List (List Char)) (f : Field)
    (r : Option Nat) (terms : List Nat) (enqs : List FieldState)
    (hf : mkField data = some f)
    (h : solveTrace data = some (r, terms, enqs)) :
    (f.dump :: enqs).Nodup :=
  solveTrace_enqs_nodup hf h

/-- Claim C3 witness: the fixture run enqueues the initial signature and
two child signatures, all distinct. -/
theorem signature_enqueued_once_witness :
    ((field9.dump : FieldState) ::
      [(⟨{⟨7, 1⟩}, {⟨1, 1⟩}⟩ : FieldState), ⟨{⟨1, 1⟩}, ∅⟩]).Nodup :=
  signature_enqueued_once data9 field9 (some 8) [8]
    [⟨{⟨7, 1⟩}, {⟨1, 1⟩}⟩, ⟨{⟨1, 1⟩}, ∅⟩] (by decide) (by decide)

/-- Claim C4 counterexample: the claim states the emission order
right, down, left, up.  At the interior cell (1, 1) of an open grid both
the right neighbor (2, 1) and the down neighbor (1, 2) pass the guard, and
`get_neighbors` emits the down neighbor first: the source direction list
`[(0, 1), (1, 0), (0, -1), (-1, 0)]` is down, right, up, left in
(column, row) coordinates. -/
theorem get_neighbors_order_counterexample :
    (mkField dataOpen).map (fun f => f.get_neighbors ⟨1, 1⟩)
      = some [⟨1, 2⟩, ⟨2, 1⟩] ∧
    (mkField dataOpen).map (fun f => f.get_neighbors ⟨1, 1⟩)
      ≠ some [⟨2, 1⟩, ⟨1, 2⟩] := by decide

/-- Claim C4 (amended): `get_neighbors` yields exactly those of the four
orthogonally adjacent coordinates that are strictly inside the interior
bounds, not a wall, not occupied by a robot, and not a door whose matching
key is still uncollected — but in the fixed order down, right, up, left
(not right, down, left, up as claimed). -/
theorem get_neighbors_characterization (f : Field) (p : Point) :
    (∀ n, n ∈ f.get_neighbors p ↔
      ((n = ⟨p.x, p.y + 1⟩ ∨ n = ⟨p.x + 1, p.y⟩ ∨
        n = ⟨p.x, p.y - 1⟩ ∨ n = ⟨p.x - 1, p.y⟩) ∧
       (0 < n.x ∧ n.x < f.x_max_value ∧
        0 < n.y ∧ n.y < f.y_max_value) ∧
       n ∉ f.robots ∧ n ∉ f.walls ∧
       (n ∉ f.doors ∨ ∃ k, f.doors_keys.lookup n = some k ∧ k ∉ f.keys)))
    ∧ List.Sublist (f.get_neighbors p)
        [⟨p.x, p.y + 1⟩, ⟨p.x + 1, p.y⟩, ⟨p.x, p.y - 1⟩,
         ⟨p.x - 1, p.y⟩] := by
  refine ⟨?_, get_neighbors_sublist f p⟩
  intro n
  rw [mem_get_neighbors, passable_iff]
  tauto

/-- Claim C5: `collect_key` moves the robot from its coordinate onto the
key coordinate and removes that coordinate from the remaining-key set; it
fails (raises, modelled `none`) exactly when the robot coordinate is not a
current robot position or the key coordinate is not a remaining key. -/
theorem collect_key_correct (f : Field) (r k : Point)
    (hr : f.robots.Nodup) (hk : f.keys.Nodup) :
    ((f.collect_key r k).isSome ↔ (r ∈ f.robots ∧ k ∈ f.keys)) ∧
    ∀ f', f.collect_key r k = some f' →
      f'.robots.toFinset = insert k (f.robots.toFinset.erase r) ∧
      f'.keys.toFinset = f.keys.toFinset.erase k := by
  refine ⟨collect_key_isSome_iff f r k, ?_⟩
  intro f' h
  have hsome : (f.collect_key r k).isSome := by rw [h]; rfl
  obtain ⟨hrm, hkm⟩ := (collect_key_isSome_iff f r k).mp hsome
  rw [collect_key_some f r k hrm hkm] at h
  injection h with h
  subst h
  constructor
  · show (Field.insertSet (f.robots.erase r) k).toFinset = _
    rw [insertSet_toFinset, toFinset_erase_of_nodup hr]
  · show (f.keys.erase k).toFinset = _
    exact toFinset_erase_of_nodup hk k

/-- Claim C5 witness: collecting key (7, 1) with the robot at (5, 1) on the
fixture field succeeds. -/
theorem collect_key_correct_witness :
    (field9.collect_key ⟨5, 1⟩ ⟨7, 1⟩).isSome :=
  (collect_key_correct field9 ⟨5, 1⟩ ⟨7, 1⟩ (by decide) (by decide)).1.mpr
    (by decide)

/-- Claim C6: in the store model of Python object aliasing, `copy`
allocates fresh robot/key set objects holding the parent's contents, and a
subsequent `collect_key` mutation applied to the copy leaves the sets read
through the parent's references unchanged. -/
theorem copy_mutation_frame (σ : SetStore) (f : FieldRef) (r k : Point)
    (hr : f.robots_ref < σ.length) (hk : f.keys_ref < σ.length) :
    readSet (copyRef σ f).1 (copyRef σ f).2.robots_ref
      = readSet σ f.robots_ref ∧
    readSet (copyRef σ f).1 (copyRef σ f).2.keys_ref
      = readSet σ f.keys_ref ∧
    ∀ σ₂, collect_key_ref (copyRef σ f).1 (copyRef σ f).2 r k = some σ₂ →
      readSet σ₂ f.robots_ref = readSet σ f.robots_ref ∧
      readSet σ₂ f.keys_ref = readSet σ f.keys_ref := by
  have hread1 : readSet (copyRef σ f).1 (copyRef σ f).2.robots_ref
      = readSet σ f.robots_ref := by
    show readSet (σ ++ [readSet σ f.robots_ref, readSet σ f.keys_ref])
      σ.length = _
    unfold readSet
    rw [List.getD_append_right _ _ _ _ (le_refl _), Nat.sub_self]
    rfl
  have hread2 : readSet (copyRef σ f).1 (copyRef σ f).2.keys_ref
      = readSet σ f.keys_ref := by
    show readSet (σ ++ [readSet σ f.robots_ref, readSet σ f.keys_ref])
      (σ.length + 1) = _
    unfold readSet
    rw [List.getD_append_right _ _ _ _ (Nat.le_succ _),
      Nat.succ_sub (le_refl _), Nat.sub_self]
    rfl
  refine ⟨hread1, hread2, ?_⟩
  intro σ₂ h
  simp only [collect_key_ref] at h
  split_ifs at h with h1 h2
  · injection h with h
    subst h
    have hro : f.robots_ref ≠ σ.length := by omega
    have hko : f.keys_ref ≠ σ.length := by omega
    have hro1 : f.robots_ref ≠ σ.length + 1 := by omega
    have hko1 : f.keys_ref ≠ σ.length + 1 := by omega
    have happ : ∀ i, i < σ.length →
        readSet (σ ++ [readSet σ f.robots_ref, readSet σ f.keys_ref]) i
          = readSet σ i := by
      intro i hi
      unfold readSet
      rw [List.getD_append _ _ _ _ hi]
    have hset : ∀ (τ : SetStore) (j i : Nat) (s : List Point), i ≠ j →
        readSet (writeSet τ j s) i = readSet τ i := by
      intro τ j i s hij
      unfold readSet writeSet
      rcases Nat.lt_or_ge i τ.length with hlt | hge
      · rw [List.getD_eq_getElem?_getD, List.getD_eq_getElem?_getD,
          List.getElem?_set_ne (by omega)]
      · rw [List.getD_eq_getElem?_getD, List.getD_eq_getElem?_getD,
          List.getElem?_set_ne (by omega)]
    constructor
    · show readSet (writeSet (writeSet _ ((copyRef σ f).2.robots_ref) _)
        ((copyRef σ f).2.keys_ref) _) f.robots_ref = _
      rw [hset _ _ _ _ (show f.robots_ref ≠ (copyRef σ f).2.keys_ref
          from hro1),
        hset _ _ _ _ (show f.robots_ref ≠ (copyRef σ f).2.robots_ref
          from hro)]
      exact happ _ hr
    · show readSet (writeSet (writeSet _ ((copyRef σ f).2.robots_ref) _)
        ((copyRef σ f).2.keys_ref) _) f.keys_ref = _
      rw [hset _ _ _ _ (show f.keys_ref ≠ (copyRef σ f).2.keys_ref
          from hko1),
        hset _ _ _ _ (show f.keys_ref ≠ (copyRef σ f).2.robots_ref
          from hko)]
      exact happ _ hk

/-- Claim C6 witness: a concrete two-set store; after copying and
collecting a key on the copy, the parent's sets read back unchanged. -/
theorem copy_mutation_frame_witness :
    readSet [[⟨1, 1⟩], [⟨2, 2⟩], [⟨2, 2⟩], []] 0 = [⟨1, 1⟩] ∧
    readSet [[⟨1, 1⟩], [⟨2, 2⟩], [⟨2, 2⟩], []] 1 = [⟨2, 2⟩] :=
  (copy_mutation_frame [[⟨1, 1⟩], [⟨2, 2⟩]] ⟨0, 1, [], [], [], 3, 3⟩
    ⟨1, 1⟩ ⟨2, 2⟩ (by decide) (by decide)).2.2
    [[⟨1, 1⟩], [⟨2, 2⟩], [⟨2, 2⟩], []] (by decide)

/-- Claim C7 counterexample: a ragged grid with zero robots is not
rejected — construction succeeds and the search loop runs to completion
(returning the `float("inf")` value, modelled `some none`), instead of
raising a configuration error before the search. -/
theorem malformed_grid_not_rejected :
    mkField dataRagged ≠ none ∧ solve dataRagged = some none := by decide

/-- Claim C7 (amended): of the three malformed-input classes the claim
lists, only a door whose lowercase letter appears at no key cell is
rejected — construction fails (the `keys[element.lower()]` lookup raises)
before the search loop begins; ragged rows and zero-robot grids are
accepted and searched. -/
theorem door_without_key_rejected (data : List (List Char))
    (pc : Point × Char) (hmem : pc ∈ gridCells data)
    (hdoor : fromString pc.2 = some .door)
    (hkey : keyFor (gridCells data) pc.2.toLower = none) :
    mkField data = none := by
  cases data with
  | nil => rfl
  | cons row0 rows =>
    simp only [mkField]
    by_cases hall : (gridCells (row0 :: rows)).all fun pc =>
        (fromString pc.2).isSome
    · rw [if_pos hall]
      rw [doorEntries_none_of_missing (gridCells (row0 :: rows)) _ pc
        (List.mem_filter.mpr ⟨hmem, by simp [hdoor]⟩) hkey]
    · rw [if_neg hall]

/-- Claim C7 witness: a grid with door `A` and no key `a` is rejected at
construction. -/
theorem door_without_key_rejected_witness : mkField dataDoorNoKey = none :=
  door_without_key_rejected dataDoorNoKey (⟨1, 1⟩, 'A') (by decide)
    (by decide) (by decide)

/-- Claim C8: on every grid accepted by the constructor whose key set is
empty, `solve` returns exactly 0. -/
theorem solve_zero_keys (data : List (List Char)) (f : Field)
    (hf : mkField data = some f) (hk : f.keys = []) :
    solve data = some (some 0) := by
  unfold solve solveTrace
  rw [hf]
  show ((solveLoop (solveFuel f) [] [⟨f, 0⟩] none [] []).map Prod.fst)
    = some (some 0)
  have h1 : solveFuel f = 2 := by simp [solveFuel, hk]
  rw [h1, show (2 : Nat) = 1 + 1 from rfl]
  rw [solveLoop_term (show Field.keys_count f = 0 by
    simp [Field.keys_count, hk])]
  rw [show (1 : Nat) = 0 + 1 from rfl, solveLoop_nil]
  rfl

/-- Claim C8 witness: the all-wall grid with one robot and no keys yields
0. -/
theorem solve_zero_keys_witness : solve dataZeroKeys = some (some 0) :=
  solve_zero_keys dataZeroKeys fieldZeroKeys (by decide) (by decide)

/-- Claim C9: on the literal regression fixture
`#########` / `#b.A.@.a#` / `#########`, `solve` returns exactly 8. -/
theorem solve_fixture_eight : solve data9 = some (some 8) := by decide

/-- Claim C10: every door coordinate of a constructed field (and of any of
its copies, which share `doors` and `doors_keys`) has an entry in the
door-to-key mapping, so the `doors_keys[neighbor]` lookup inside
`get_neighbors` can never fail. -/
theorem doors_always_mapped (data : List (List Char)) (f : Field)
    (h : mkField data = some f) :
    (∀ d ∈ f.doors, (f.doors_keys.lookup d).isSome) ∧
    (∀ d ∈ f.copy.doors, (f.copy.doors_keys.lookup d).isSome) :=
  ⟨mkField_doors_covered h, mkField_doors_covered h⟩

/-- Claim C10 witness: the fixture door at (3, 1) has a mapping. -/
theorem doors_always_mapped_witness :
    ((field9.doors_keys).lookup ⟨3, 1⟩).isSome :=
  (doors_always_mapped data9 field9 (by decide)).1 ⟨3, 1⟩ (by decide)

end Run2
